import Mathlib

/-!
Verification development for the SubE2C subtitle-translation pipeline.

The program under study reads a subtitle file, splits it into blocks on
runs of blank lines, translates the text lines of each well-formed block
through an external provider with a retry loop, reassembles the document
and writes it out.  The definitions below are a shallow embedding of the
functions of SubE2C.py over lists of characters; the external translation
call and the filesystem are modelled by explicit oracles passed in as
arguments.
-/

set_option maxHeartbeats 1000000

namespace SubE2C

/-- Python str.strip() whitespace predicate: the characters for which
str.isspace() holds (ASCII whitespace, the C1 and Unicode space
code points). -/
def isPySpace (c : Char) : Bool :=
  c = ' ' || c = '\t' || c = '\n' || c = '\r' || c = '\x0b' || c = '\x0c' ||
  c = '\x1c' || c = '\x1d' || c = '\x1e' || c = '\x1f' || c = '\x85' || c = '\xa0' ||
  c = '\u1680' || ('\u2000' ≤ c && c ≤ '\u200a') || c = '\u2028' || c = '\u2029' ||
  c = '\u202f' || c = '\u205f' || c = '\u3000'

/-- Remove leading Python whitespace (the str.lstrip() part of str.strip()). -/
def stripL (l : List Char) : List Char := l.dropWhile isPySpace

/-- Remove trailing Python whitespace (the str.rstrip() part of str.strip()). -/
def stripR (l : List Char) : List Char := (l.reverse.dropWhile isPySpace).reverse

/-- Python str.strip() with no arguments: drop whitespace from both ends. -/
def pyStrip (l : List Char) : List Char := stripR (stripL l)

/-- Worker for the regex split on blank-line runs.  cur is the fragment
accumulated so far and nl the number of consecutive newlines just read:
a run of two or more newlines is a separator, a single newline belongs to
the fragment. -/
def splitNNGo (cur : List Char) (nl : Nat) : List Char → List (List Char)
  | [] => if 2 ≤ nl then [cur, []] else [cur ++ List.replicate nl '\n']
  | c :: rest =>
      if c = '\n' then splitNNGo cur (nl + 1) rest
      else if 2 ≤ nl then cur :: splitNNGo [c] 0 rest
      else splitNNGo ((cur ++ List.replicate nl '\n') ++ [c]) 0 rest

/-- Model of re.split of the pattern of two-or-more newlines: the input is
cut at every maximal run of at least two newlines. -/
def splitNN (l : List Char) : List (List Char) := splitNNGo [] 0 l

/-- Join a list of fragments with a separator, as Python str.join. -/
def joinSep (sep : List Char) : List (List Char) → List Char
  | [] => []
  | [b] => b
  | b :: b' :: bs => b ++ sep ++ joinSep sep (b' :: bs)

/-- Python str.split of a single newline: cut at every newline, keeping
empty fragments. -/
def splitOnNl : List Char → List (List Char)
  | [] => [[]]
  | c :: rest =>
      if c = '\n' then [] :: splitOnNl rest
      else
        match splitOnNl rest with
        | [] => [[c]]
        | f :: fs => (c :: f) :: fs

/-- Block parsing of process_srt_file: strip the content, split it on
blank-line runs, strip each block and discard blocks that are empty after
stripping. -/
def parseBlocks (content : List Char) : List (List Char) :=
  ((splitNN (pyStrip content)).map pyStrip).filter (· ≠ [])

/-- Serialization of process_srt_file: join the blocks with one blank line
and terminate the document with a single newline. -/
def serializeBlocks (bs : List (List Char)) : List Char :=
  joinSep ['\n', '\n'] bs ++ ['\n']

/-- Outcome of one call of translate_text as seen by the block loop:
a returned translation, an explicit None, or a raised exception. -/
inductive TransOutcome where
  | ok (s : List Char)
  | noResult
  | exn
deriving DecidableEq

/-- One iteration of the block loop of process_srt_file.  The block is
split into lines; with fewer than 3 lines it is passed through unchanged
and the provider is not called.  Otherwise the text lines are joined and
sent to the provider: a returned translation replaces the text, an
explicit None keeps the original text, and a raised exception makes the
handler append the original block.  The boolean records whether
translate_text was called. -/
def processBlock (oracle : Nat → List Char → TransOutcome) (i : Nat)
    (block : List Char) : List Char × Bool :=
  let lines := splitOnNl block
  if lines.length < 3 then (block, false)
  else
    let text := joinSep ['\n'] (lines.drop 2)
    match oracle i text with
    | TransOutcome.exn => (block, true)
    | TransOutcome.noResult =>
        (lines.getD 0 [] ++ '\n' :: (lines.getD 1 [] ++ '\n' :: text), true)
    | TransOutcome.ok s =>
        (lines.getD 0 [] ++ '\n' :: (lines.getD 1 [] ++ '\n' :: s), true)

/-- Map a function over a list together with a running index, as Python
enumerate. -/
def mapWithIndex (f : Nat → List Char → List Char) : Nat → List (List Char) → List (List Char)
  | _, [] => []
  | i, b :: bs => f i b :: mapWithIndex f (i + 1) bs

/-- The block loop of process_srt_file over the whole parsed document,
with blocks enumerated from 1 as in the source. -/
def translateBlocks (oracle : Nat → List Char → TransOutcome)
    (blocks : List (List Char)) : List (List Char) :=
  mapWithIndex (fun i b => (processBlock oracle i b).1) 1 blocks

/-- Count the per-block outcomes of a run: blocks whose provider call
returned a translation, blocks that fell back to their original text
(explicit None or exception), and malformed blocks skipped without a
provider call. -/
def blockCounts (oracle : Nat → List Char → TransOutcome) :
    Nat → List (List Char) → Nat × Nat × Nat
  | _, [] => (0, 0, 0)
  | i, b :: bs =>
      let r := blockCounts oracle (i + 1) bs
      if (splitOnNl b).length < 3 then (r.1, r.2.1, r.2.2 + 1)
      else
        match oracle i (joinSep ['\n'] ((splitOnNl b).drop 2)) with
        | TransOutcome.ok _ => (r.1 + 1, r.2.1, r.2.2)
        | _ => (r.1, r.2.1 + 1, r.2.2)

/-- Model of os.path.dirname for POSIX paths: the part of the path up to
the last slash, with trailing slashes removed unless the result is all
slashes. -/
def dirname (p : List Char) : List Char :=
  let head := (p.reverse.dropWhile (· ≠ '/')).reverse
  if head ≠ [] ∧ head.any (· ≠ '/') then (head.reverse.dropWhile (· = '/')).reverse
  else head

/-- Model of the pure core of get_output_filename on an accepted entered
name: append the .srt extension unless already present. -/
def outputFilename (name : List Char) : List Char :=
  if List.isSuffixOf ['.', 's', 'r', 't'] name then name
  else name ++ ['.', 's', 'r', 't']

/-- The encoding-fallback loop of process_srt_file: the decoded content
is the first successful decode attempt, in order. -/
def firstDecode : List (Option (List Char)) → Option (List Char)
  | [] => none
  | some s :: _ => some s
  | none :: rest => firstDecode rest

/-- The three final prints of the success path of process_srt_file. -/
def summaryLines (output_path : List Char) (total_blocks : Nat) : List String :=
  ["\nTranslation completed successfully!",
   "Translated file saved to: " ++ String.mk output_path,
   "Total blocks processed: " ++ toString total_blocks]

/-- Result of one run of process_srt_file.  decodeFail is the path where
no encoding decoded the input (the function returns False); fsFail is the
path where os.makedirs raised (the function returns False and no output
file is written); success carries the content written to the output file
and the summary prints. -/
inductive ProcOutcome where
  | decodeFail
  | fsFail
  | success (written : List Char) (summary : List String)
deriving DecidableEq

/-- Shallow embedding of process_srt_file.  The file read and the decode
attempts are abstracted by the list of per-encoding decode outcomes; the
translation provider by an oracle from block index and text to a call
outcome; the filesystem by a predicate telling which existing-or-creatable
directories os.makedirs succeeds on.  os.makedirs of the empty string
always raises in Python, which the model hard-codes. -/
def process_srt_file (decoded : List (Option (List Char)))
    (oracle : Nat → List Char → TransOutcome)
    (output_path : List Char) (fsOk : List Char → Bool) : ProcOutcome :=
  match firstDecode decoded with
  | none => ProcOutcome.decodeFail
  | some content =>
      let blocks := parseBlocks content
      let translated := translateBlocks oracle blocks
      if dirname output_path = [] then ProcOutcome.fsFail
      else if fsOk (dirname output_path) then
        ProcOutcome.success (serializeBlocks translated)
          (summaryLines output_path blocks.length)
      else ProcOutcome.fsFail

/-- The boolean returned by process_srt_file: True only on the success
path, False when any document-level exception was caught. -/
def process_srt_file_ret (decoded : List (Option (List Char)))
    (oracle : Nat → List Char → TransOutcome)
    (output_path : List Char) (fsOk : List Char → Bool) : Bool :=
  match process_srt_file decoded oracle output_path fsOk with
  | ProcOutcome.success _ _ => true
  | _ => false

/-- Trace of one call of translate_text: the returned value, the number
of attempts made at the external call, and the list of sleep durations
performed between attempts. -/
structure RetryTrace where
  result : Option (List Char)
  attempts : Nat
  sleeps : List Nat
deriving DecidableEq

/-- The retry loop of translate_text.  api gives the outcome of the
external call at each attempt index; fuel is the number of attempts still
allowed including the current one.  On success the result is returned at
once; on an error with attempts remaining the loop sleeps the constant
delay and retries; after the last attempt it returns none. -/
def retryLoop (api : Nat → Except Unit (List Char)) (delay : Nat) :
    Nat → Nat → RetryTrace
  | _, 0 => ⟨none, 0, []⟩
  | attempt, fuel + 1 =>
      match api attempt with
      | Except.ok s => ⟨some s, 1, []⟩
      | Except.error _ =>
          if fuel = 0 then ⟨none, 1, []⟩
          else
            let t := retryLoop api delay (attempt + 1) fuel
            ⟨t.result, t.attempts + 1, delay :: t.sleeps⟩

/-- Shallow embedding of translate_text with its default arguments
max_retries = 10 and delay = 5. -/
def translate_text (api : Nat → Except Unit (List Char))
    (max_retries : Nat := 10) (delay : Nat := 5) : RetryTrace :=
  retryLoop api delay 0 max_retries

/-- A UTF-8 continuation byte. -/
def contOK (c : Fin 256) : Bool := 0x80 ≤ c.val && c.val ≤ 0xBF

/-- Admissible first continuation byte of a three-byte UTF-8 sequence
(the ranges that exclude overlong forms and surrogates). -/
def firstContOK3 (b c1 : Fin 256) : Bool :=
  if b.val = 0xE0 then 0xA0 ≤ c1.val && c1.val ≤ 0xBF
  else if b.val = 0xED then 0x80 ≤ c1.val && c1.val ≤ 0x9F
  else contOK c1

/-- Admissible first continuation byte of a four-byte UTF-8 sequence
(the ranges that exclude overlong forms and code points past 10FFFF). -/
def firstContOK4 (b c1 : Fin 256) : Bool :=
  if b.val = 0xF0 then 0x90 ≤ c1.val && c1.val ≤ 0xBF
  else if b.val = 0xF4 then 0x80 ≤ c1.val && c1.val ≤ 0x8F
  else contOK c1

/-- Strict UTF-8 decoding as performed by the utf-8 codec: rejects
invalid start bytes, wrong continuation bytes, overlong forms, surrogates
and code points past 10FFFF. -/
def utf8Decode : List (Fin 256) → Option (List Char)
  | [] => some []
  | b :: rest =>
      if b.val ≤ 0x7F then (utf8Decode rest).map (fun cs => Char.ofNat b.val :: cs)
      else if 0xC2 ≤ b.val ∧ b.val ≤ 0xDF then
        match rest with
        | c1 :: rest2 =>
            if contOK c1 then
              (utf8Decode rest2).map
                (fun cs => Char.ofNat ((b.val - 0xC0) * 0x40 + (c1.val - 0x80)) :: cs)
            else none
        | [] => none
      else if 0xE0 ≤ b.val ∧ b.val ≤ 0xEF then
        match rest with
        | c1 :: c2 :: rest3 =>
            if firstContOK3 b c1 && contOK c2 then
              (utf8Decode rest3).map
                (fun cs => Char.ofNat
                  ((b.val - 0xE0) * 0x1000 + (c1.val - 0x80) * 0x40 + (c2.val - 0x80)) :: cs)
            else none
        | _ => none
      else if 0xF0 ≤ b.val ∧ b.val ≤ 0xF4 then
        match rest with
        | c1 :: c2 :: c3 :: rest4 =>
            if firstContOK4 b c1 && contOK c2 && contOK c3 then
              (utf8Decode rest4).map
                (fun cs => Char.ofNat
                  ((b.val - 0xF0) * 0x40000 + (c1.val - 0x80) * 0x1000 +
                   (c2.val - 0x80) * 0x40 + (c3.val - 0x80)) :: cs)
            else none
        | _ => none
      else none

/-- The utf-8-sig codec: strip a UTF-8 byte-order mark when present, then
decode as strict UTF-8. -/
def utf8SigDecode (bs : List (Fin 256)) : Option (List Char) :=
  if bs.take 3 = [0xEF, 0xBB, 0xBF] then utf8Decode (bs.drop 3)
  else utf8Decode bs

/-- The code points of the cp1252 0x80 to 0x9F range; none marks the five
bytes undefined in cp1252, on which strict decoding fails. -/
def cp1252High : List (Option Nat) :=
  [some 0x20AC, none, some 0x201A, some 0x0192, some 0x201E, some 0x2026,
   some 0x2020, some 0x2021, some 0x02C6, some 0x2030, some 0x0160, some 0x2039,
   some 0x0152, none, some 0x017D, none, none, some 0x2018, some 0x2019,
   some 0x201C, some 0x201D, some 0x2022, some 0x2013, some 0x2014, some 0x02DC,
   some 0x2122, some 0x0161, some 0x203A, some 0x0153, none, some 0x017E,
   some 0x0178]

/-- Decode one byte under strict cp1252. -/
def cp1252Char (b : Fin 256) : Option Char :=
  if b.val < 0x80 ∨ 0xA0 ≤ b.val then some (Char.ofNat b.val)
  else (cp1252High.getD (b.val - 0x80) none).map Char.ofNat

/-- Strict cp1252 decoding of a byte sequence. -/
def cp1252Decode : List (Fin 256) → Option (List Char)
  | [] => some []
  | b :: rest =>
      match cp1252Char b, cp1252Decode rest with
      | some c, some cs => some (c :: cs)
      | _, _ => none

/-- The latin-1 codec maps every byte directly to the code point of the
same value, so decoding is total: it never raises on any byte sequence. -/
def latin1Decode (bs : List (Fin 256)) : List Char :=
  bs.map (fun b => Char.ofNat b.val)

/-- The decode attempts of process_srt_file on a raw byte sequence, in
the order of its encoding list: utf-8, utf-8-sig, cp1252, latin-1. -/
def decodeAttempts (bs : List (Fin 256)) : List (Option (List Char)) :=
  [utf8Decode bs, utf8SigDecode bs, cp1252Decode bs, some (latin1Decode bs)]

/-- A character list with no two consecutive newlines. -/
abbrev noNN (l : List Char) : Prop :=
  l.Chain' (fun a b => ¬(a = '\n' ∧ b = '\n'))

/-- The summary prints of a run, when it reached the success path. -/
def procSummary : ProcOutcome → Option (List String)
  | ProcOutcome.success _ s => some s
  | _ => none

/-- Fixture: a provider whose calls always return an explicit None. -/
def oracleNone : Nat → List Char → TransOutcome := fun _ _ => TransOutcome.noResult

/-- Fixture: a provider whose calls always return the translation X. -/
def oracleOkX : Nat → List Char → TransOutcome := fun _ _ => TransOutcome.ok ['X']

/-- Fixture: a provider whose calls always return the empty string. -/
def oracleOkEmpty : Nat → List Char → TransOutcome := fun _ _ => TransOutcome.ok []

/-- Fixture: an external call that always raises. -/
def apiAllFail : Nat → Except Unit (List Char) := fun _ => Except.error ()

/-- Fixture: a filesystem on which every directory can be created. -/
def fsAll : List Char → Bool := fun _ => true

/-- Fixture: a one-block document. -/
def docOne : List Char := ("1\nt\nHi").data

/-- Fixture: a two-block document. -/
def docTwo : List Char := ("1\nt1\nHello\n\n2\nt2\nWorld").data

/-- Fixture: a document whose second block is malformed. -/
def docMal : List Char := ("1\nt\nHi\n\nx").data

/-- Fixture: an output path with a nonempty directory component. -/
def pathOut : List Char := ("out/x.srt").data

/-- Fixture: a bare output filename, whose directory component is empty. -/
def pathBare : List Char := ("out.srt").data

/-! Lemmas about Python strip. -/

theorem isPySpace_nl : isPySpace '\n' = true := by decide

theorem dropWhile_eq_self_of_head? {p : Char → Bool} {l : List Char} {c : Char}
    (h : l.head? = some c) (hc : p c = false) : l.dropWhile p = l := by
  cases l with
  | nil => rfl
  | cons a t =>
      simp only [List.head?_cons, Option.some.injEq] at h
      subst h
      simp [List.dropWhile_cons, hc]

theorem head?_dropWhile {p : Char → Bool} {l : List Char} {c : Char}
    (h : (l.dropWhile p).head? = some c) : p c = false := by
  have hne : l.dropWhile p ≠ [] := by
    intro hnil; rw [hnil] at h; simp at h
  have hp := List.head_dropWhile_not p l hne
  rw [List.head?_eq_head hne, Option.some.injEq] at h
  rwa [h] at hp

theorem stripR_decomp (l : List Char) :
    l = stripR l ++ (l.reverse.takeWhile isPySpace).reverse := by
  unfold stripR
  conv_lhs => rw [← List.reverse_reverse l]
  rw [← List.reverse_append, List.takeWhile_append_dropWhile]

theorem head?_stripL {l : List Char} {c : Char}
    (h : (stripL l).head? = some c) : isPySpace c = false :=
  head?_dropWhile h

theorem getLast?_stripR {l : List Char} {c : Char}
    (h : (stripR l).getLast? = some c) : isPySpace c = false := by
  unfold stripR at h
  rw [List.getLast?_reverse] at h
  exact head?_dropWhile h

theorem stripL_eq_of_head? {l : List Char} {c : Char}
    (h : l.head? = some c) (hc : isPySpace c = false) : stripL l = l :=
  dropWhile_eq_self_of_head? h hc

theorem stripR_eq_of_getLast? {l : List Char} {c : Char}
    (h : l.getLast? = some c) (hc : isPySpace c = false) : stripR l = l := by
  unfold stripR
  rw [← List.head?_reverse] at h
  rw [dropWhile_eq_self_of_head? h hc, List.reverse_reverse]

theorem stripR_nil : stripR [] = [] := rfl

theorem head?_stripR {l : List Char} (h : stripR l ≠ []) :
    (stripR l).head? = l.head? := by
  conv_rhs => rw [stripR_decomp l]
  rw [List.head?_append_of_ne_nil _ h]

theorem head?_pyStrip {l : List Char} {c : Char}
    (h : (pyStrip l).head? = some c) : isPySpace c = false := by
  unfold pyStrip at h
  have hne : stripR (stripL l) ≠ [] := by
    intro hnil; rw [hnil] at h; simp at h
  rw [head?_stripR hne] at h
  exact head?_stripL h

theorem getLast?_pyStrip {l : List Char} {c : Char}
    (h : (pyStrip l).getLast? = some c) : isPySpace c = false :=
  getLast?_stripR h

theorem pyStrip_idem (l : List Char) : pyStrip (pyStrip l) = pyStrip l := by
  unfold pyStrip
  cases hz : stripR (stripL l) with
  | nil => simp [stripL, stripR]
  | cons a t =>
      have hne : stripR (stripL l) ≠ [] := by rw [hz]; simp
      have h1 : (stripR (stripL l)).head? = some a := by rw [hz]; rfl
      have ha : isPySpace a = false :=
        head?_pyStrip (show (pyStrip l).head? = some a from h1)
      have hsl : stripL (stripR (stripL l)) = stripR (stripL l) :=
        stripL_eq_of_head? h1 ha
      rw [← hz, hsl]
      cases hlast : (stripR (stripL l)).getLast? with
      | none =>
          rw [List.getLast?_eq_none_iff] at hlast
          exact absurd hlast hne
      | some b =>
          exact stripR_eq_of_getLast? hlast (getLast?_stripR hlast)

/-! Lemmas about noNN. -/

theorem noNN_append_left {l₁ l₂ : List Char} (h : noNN (l₁ ++ l₂)) : noNN l₁ :=
  (List.chain'_append.mp h).1

theorem noNN_append_right {l₁ l₂ : List Char} (h : noNN (l₁ ++ l₂)) : noNN l₂ :=
  (List.chain'_append.mp h).2.1

theorem noNN_stripL {l : List Char} (h : noNN l) : noNN (stripL l) := by
  have := List.takeWhile_append_dropWhile isPySpace l
  exact noNN_append_right (this.symm ▸ h)

theorem noNN_stripR {l : List Char} (h : noNN l) : noNN (stripR l) :=
  noNN_append_left ((stripR_decomp l) ▸ h)

theorem noNN_pyStrip {l : List Char} (h : noNN l) : noNN (pyStrip l) :=
  noNN_stripR (noNN_stripL h)

theorem noNN_snoc {l : List Char} {c : Char} (h : noNN l)
    (h2 : ∀ x, l.getLast? = some x → ¬(x = '\n' ∧ c = '\n')) : noNN (l ++ [c]) := by
  refine List.chain'_append.mpr ⟨h, List.chain'_singleton c, ?_⟩
  intro x hx y hy
  simp only [List.head?_cons, Option.mem_def, Option.some.injEq] at hy
  subst hy
  exact h2 x hx

/-! Lemmas about splitNN: every fragment it produces has no two
consecutive newlines. -/

theorem splitNNGo_frag_noNN :
    ∀ (l cur : List Char) (nl : Nat), noNN cur → cur.getLast? ≠ some '\n' →
      ∀ f ∈ splitNNGo cur nl l, noNN f := by
  intro l
  induction l with
  | nil =>
      intro cur nl hc hl f hf
      simp only [splitNNGo] at hf
      by_cases h2 : 2 ≤ nl
      · simp only [if_pos h2, List.mem_cons, List.mem_singleton] at hf
        rcases hf with h | h | h
        · subst h; exact hc
        · subst h; exact List.chain'_nil
        · exact absurd h (by simp)
      · simp only [if_neg h2, List.mem_singleton] at hf
        subst hf
        have hnl : nl = 0 ∨ nl = 1 := by omega
        rcases hnl with h | h
        · subst h; simpa using hc
        · subst h
          refine noNN_snoc hc (fun x hx hand => ?_)
          exact hl (by rw [hx, hand.1])
  | cons c rest ih =>
      intro cur nl hc hl f hf
      simp only [splitNNGo] at hf
      by_cases hcn : c = '\n'
      · rw [if_pos hcn] at hf
        exact ih cur (nl + 1) hc hl f hf
      · rw [if_neg hcn] at hf
        by_cases h2 : 2 ≤ nl
        · rw [if_pos h2] at hf
          rcases List.mem_cons.mp hf with h | h
          · subst h; exact hc
          · refine ih [c] 0 (List.chain'_singleton c) ?_ f h
            intro hx
            rw [List.getLast?_singleton] at hx
            exact hcn (Option.some.inj hx)
        · rw [if_neg h2] at hf
          have hnl : nl = 0 ∨ nl = 1 := by omega
          have hcur' : noNN ((cur ++ List.replicate nl '\n') ++ [c]) := by
            rcases hnl with h | h
            · subst h
              refine noNN_snoc ?_ (fun x _ hand => hcn hand.2)
              simpa using hc
            · subst h
              refine noNN_snoc ?_ (fun x _ hand => hcn hand.2)
              rw [List.replicate_one]
              refine noNN_snoc hc (fun x hx hand => ?_)
              exact hl (by rw [hx, hand.1])
          have hlast' : ((cur ++ List.replicate nl '\n') ++ [c]).getLast? ≠ some '\n' := by
            rw [List.getLast?_concat]
            intro hx
            exact hcn (Option.some.inj hx)
          exact ih _ 0 hcur' hlast' f hf

theorem splitNN_frag_noNN (l : List Char) : ∀ f ∈ splitNN l, noNN f :=
  splitNNGo_frag_noNN l [] 0 List.chain'_nil (by simp)

/-! The parsed blocks of any content are nonempty, fixed by strip, and
contain no two consecutive newlines. -/

theorem parseBlocks_good {content b : List Char} (h : b ∈ parseBlocks content) :
    b ≠ [] ∧ pyStrip b = b ∧ noNN b := by
  unfold parseBlocks at h
  rw [List.mem_filter] at h
  obtain ⟨hmem, hne⟩ := h
  rw [List.mem_map] at hmem
  obtain ⟨f, hf, hfb⟩ := hmem
  refine ⟨by simpa using hne, ?_, ?_⟩
  · rw [← hfb]; exact pyStrip_idem f
  · rw [← hfb]; exact noNN_pyStrip (splitNN_frag_noNN _ f hf)

theorem good_head?_ne_nl {b : List Char} (hs : pyStrip b = b) :
    b.head? ≠ some '\n' := by
  intro h
  have hq : (pyStrip b).head? = some '\n' := by rw [hs]; exact h
  have := head?_pyStrip hq
  rw [isPySpace_nl] at this
  exact Bool.noConfusion this

theorem good_getLast?_ne_nl {b : List Char} (hs : pyStrip b = b) :
    b.getLast? ≠ some '\n' := by
  intro h
  have hq : (pyStrip b).getLast? = some '\n' := by rw [hs]; exact h
  have := getLast?_pyStrip hq
  rw [isPySpace_nl] at this
  exact Bool.noConfusion this

/-! Lemmas about splitOnNl and joinSep. -/

theorem splitOnNl_cons_newline (rest : List Char) :
    splitOnNl ('\n' :: rest) = [] :: splitOnNl rest := by
  show (if '\n' = '\n' then [] :: splitOnNl rest else _) = _
  rw [if_pos rfl]

theorem splitOnNl_cons_other {c : Char} (rest : List Char) (hc : c ≠ '\n') :
    splitOnNl (c :: rest) =
      match splitOnNl rest with
      | [] => [[c]]
      | f :: fs => (c :: f) :: fs := by
  show (if c = '\n' then [] :: splitOnNl rest else _) = _
  rw [if_neg hc]

theorem splitOnNl_ne_nil (l : List Char) : splitOnNl l ≠ [] := by
  cases l with
  | nil => simp [splitOnNl]
  | cons c rest =>
      simp only [splitOnNl]
      by_cases h : c = '\n'
      · simp [h]
      · simp only [if_neg h]
        cases splitOnNl rest <;> simp

theorem joinSep_splitOnNl (l : List Char) : joinSep ['\n'] (splitOnNl l) = l := by
  induction l with
  | nil => rfl
  | cons c rest ih =>
      by_cases h : c = '\n'
      · subst h
        simp only [splitOnNl, if_pos rfl]
        cases heq : splitOnNl rest with
        | nil => exact absurd heq (splitOnNl_ne_nil rest)
        | cons f fs =>
            rw [heq] at ih
            simp only [joinSep, List.nil_append, List.singleton_append, ih]
      · simp only [splitOnNl, if_neg h]
        cases heq : splitOnNl rest with
        | nil => exact absurd heq (splitOnNl_ne_nil rest)
        | cons f fs =>
            rw [heq] at ih
            cases fs with
            | nil => simp only [joinSep] at ih ⊢; rw [ih]
            | cons f' fs' =>
                simp only [joinSep, List.cons_append, List.append_assoc] at ih ⊢
                rw [ih]

theorem splitOnNl_append_nl {a : List Char} (t : List Char) (h : '\n' ∉ a) :
    splitOnNl (a ++ '\n' :: t) = a :: splitOnNl t := by
  induction a with
  | nil => simp [splitOnNl]
  | cons c a' ih =>
      have hc : c ≠ '\n' := fun hc => h (hc ▸ List.mem_cons_self c a')
      have ha' : '\n' ∉ a' := fun hm => h (List.mem_cons_of_mem c hm)
      show splitOnNl (c :: (a' ++ '\n' :: t)) = (c :: a') :: splitOnNl t
      simp only [splitOnNl, if_neg hc]
      rw [ih ha']

theorem splitOnNl_no_nl (l : List Char) : ∀ f ∈ splitOnNl l, '\n' ∉ f := by
  induction l with
  | nil =>
      intro f hf
      simp only [splitOnNl, List.mem_singleton] at hf
      subst hf
      exact List.not_mem_nil '\n'
  | cons c rest ih =>
      intro f hf
      simp only [splitOnNl] at hf
      by_cases h : c = '\n'
      · rw [if_pos h] at hf
        rcases List.mem_cons.mp hf with h' | h'
        · subst h'; exact List.not_mem_nil '\n'
        · exact ih f h'
      · rw [if_neg h] at hf
        cases heq : splitOnNl rest with
        | nil => exact absurd heq (splitOnNl_ne_nil rest)
        | cons g gs =>
            rw [heq] at hf
            rcases List.mem_cons.mp hf with h' | h'
            · subst h'
              intro hmem
              rcases List.mem_cons.mp hmem with h'' | h''
              · exact h h''.symm
              · exact ih g (heq ▸ List.mem_cons_self g gs) h''
            · exact ih f (heq ▸ List.mem_cons_of_mem g h')

theorem exists_three {L : List (List Char)} (h : 3 ≤ L.length) :
    ∃ l0 l1 l2 rest, L = l0 :: l1 :: l2 :: rest := by
  cases L with
  | nil => simp at h
  | cons l0 L1 =>
      cases L1 with
      | nil => simp at h
      | cons l1 L2 =>
          cases L2 with
          | nil => simp at h
          | cons l2 rest => exact ⟨l0, l1, l2, rest, rfl⟩

theorem reconstruct_eq {b : List Char} (h : 3 ≤ (splitOnNl b).length) :
    (splitOnNl b).getD 0 [] ++
      '\n' :: ((splitOnNl b).getD 1 [] ++
        '\n' :: joinSep ['\n'] ((splitOnNl b).drop 2)) = b := by
  obtain ⟨l0, l1, l2, rest, heq⟩ := exists_three h
  conv_rhs => rw [← joinSep_splitOnNl b]
  rw [heq]
  simp [joinSep, List.append_assoc]

/-! Lemmas about the per-block processing. -/

theorem processBlock_malformed {oracle : Nat → List Char → TransOutcome} {i : Nat}
    {b : List Char} (h : (splitOnNl b).length < 3) :
    processBlock oracle i b = (b, false) := by
  unfold processBlock
  simp [h]

theorem processBlock_fallback {oracle : Nat → List Char → TransOutcome} {i : Nat}
    {b : List Char}
    (h : ∀ s, oracle i (joinSep ['\n'] ((splitOnNl b).drop 2)) ≠ TransOutcome.ok s) :
    (processBlock oracle i b).1 = b := by
  unfold processBlock
  by_cases hm : (splitOnNl b).length < 3
  · simp [hm]
  · simp only [if_neg hm]
    cases ho : oracle i (joinSep ['\n'] ((splitOnNl b).drop 2)) with
    | ok s => exact absurd ho (h s)
    | noResult => simpa using reconstruct_eq (by omega)
    | exn => rfl

/-! Lemmas about the enumerated loop. -/

theorem mapWithIndex_length (f : Nat → List Char → List Char) :
    ∀ (bs : List (List Char)) (i : Nat), (mapWithIndex f i bs).length = bs.length := by
  intro bs
  induction bs with
  | nil => intro i; rfl
  | cons b bs' ih => intro i; simp [mapWithIndex, ih]

theorem mapWithIndex_getElem? (f : Nat → List Char → List Char) :
    ∀ (bs : List (List Char)) (i k : Nat),
      (mapWithIndex f i bs)[k]? = (bs[k]?).map (f (i + k)) := by
  intro bs
  induction bs with
  | nil => intro i k; simp [mapWithIndex]
  | cons b bs' ih =>
      intro i k
      cases k with
      | zero => simp [mapWithIndex]
      | succ k' =>
          simp only [mapWithIndex, List.getElem?_cons_succ, ih]
          have : i + 1 + k' = i + (k' + 1) := by omega
          rw [this]

theorem mapWithIndex_eq_self {f : Nat → List Char → List Char} :
    ∀ (bs : List (List Char)) (i : Nat), (∀ j b, b ∈ bs → f j b = b) →
      mapWithIndex f i bs = bs := by
  intro bs
  induction bs with
  | nil => intro i _; rfl
  | cons b bs' ih =>
      intro i h
      simp only [mapWithIndex]
      rw [h i b (List.mem_cons_self b bs'),
        ih (i + 1) (fun j b' hb' => h j b' (List.mem_cons_of_mem b hb'))]

/-! Round-trip lemmas: splitting the blank-line join of a list of
stripped, nonempty blocks without inner blank lines recovers the list. -/

theorem splitNNGo_nil (cur : List Char) (nl : Nat) :
    splitNNGo cur nl [] =
      if 2 ≤ nl then [cur, []] else [cur ++ List.replicate nl '\n'] := rfl

theorem splitNNGo_cons_newline (cur : List Char) (nl : Nat) (rest : List Char) :
    splitNNGo cur nl ('\n' :: rest) = splitNNGo cur (nl + 1) rest := rfl

theorem splitNNGo_cons_other {c : Char} (cur : List Char) (nl : Nat)
    (rest : List Char) (hc : c ≠ '\n') :
    splitNNGo cur nl (c :: rest) =
      if 2 ≤ nl then cur :: splitNNGo [c] 0 rest
      else splitNNGo ((cur ++ List.replicate nl '\n') ++ [c]) 0 rest := by
  show (if c = '\n' then splitNNGo cur (nl + 1) rest
    else if 2 ≤ nl then cur :: splitNNGo [c] 0 rest
    else splitNNGo ((cur ++ List.replicate nl '\n') ++ [c]) 0 rest) = _
  rw [if_neg hc]

theorem splitNNGo_noSep :
    ∀ (l cur : List Char) (nl : Nat), nl ≤ 1 → (nl = 1 → l.head? ≠ some '\n') →
      noNN l → splitNNGo cur nl l = [cur ++ List.replicate nl '\n' ++ l] := by
  intro l
  induction l with
  | nil =>
      intro cur nl h1 _ _
      rw [splitNNGo_nil, if_neg (by omega : ¬ 2 ≤ nl)]
      simp
  | cons c rest ih =>
      intro cur nl h1 hh hn
      by_cases hc : c = '\n'
      · subst hc
        have hnl0 : nl = 0 := by
          by_contra hne0
          exact hh (by omega) rfl
        subst hnl0
        rw [splitNNGo_cons_newline]
        have hcc := List.chain'_cons'.mp hn
        have hh' : rest.head? ≠ some '\n' := by
          intro hr
          exact hcc.1 '\n' (by rw [hr]; rfl) ⟨rfl, rfl⟩
        rw [ih cur 1 (by omega) (fun _ => hh') hcc.2]
        simp
      · rw [splitNNGo_cons_other cur nl rest hc, if_neg (by omega : ¬ 2 ≤ nl)]
        have hcc := List.chain'_cons'.mp hn
        rw [ih _ 0 (by omega) (by simp) hcc.2]
        simp

theorem splitNNGo_sep :
    ∀ (b t cur : List Char) (nl : Nat), nl ≤ 1 →
      (nl = 1 → b.head? ≠ some '\n' ∧ b ≠ []) → noNN b →
      b.getLast? ≠ some '\n' → t.head? ≠ some '\n' →
      splitNNGo cur nl (b ++ '\n' :: '\n' :: t) =
        (cur ++ List.replicate nl '\n' ++ b) :: splitNNGo [] 0 t := by
  intro b
  induction b with
  | nil =>
      intro t cur nl h1 hh _ _ ht
      have hnl0 : nl = 0 := by
        by_contra hne0
        exact (hh (by omega)).2 rfl
      subst hnl0
      rw [List.nil_append, splitNNGo_cons_newline, splitNNGo_cons_newline]
      cases t with
      | nil =>
          rw [splitNNGo_nil, if_pos (by omega), splitNNGo_nil]
          simp
      | cons c t' =>
          have hc : c ≠ '\n' := by
            intro h; exact ht (by rw [h]; rfl)
          rw [splitNNGo_cons_other cur 2 t' hc, if_pos (by omega),
            splitNNGo_cons_other [] 0 t' hc, if_neg (by omega : ¬ 2 ≤ 0)]
          simp
  | cons c b' ih =>
      intro t cur nl h1 hh hn hl ht
      by_cases hc : c = '\n'
      · subst hc
        have hnl0 : nl = 0 := by
          by_contra hne0
          exact (hh (by omega)).1 rfl
        subst hnl0
        have hb' : b' ≠ [] := by
          intro h
          subst h
          exact hl rfl
        have hcc := List.chain'_cons'.mp hn
        have hh' : b'.head? ≠ some '\n' := by
          intro hr
          exact hcc.1 '\n' (by rw [hr]; rfl) ⟨rfl, rfl⟩
        have hl' : b'.getLast? ≠ some '\n' := by
          cases b' with
          | nil => exact absurd rfl hb'
          | cons x xs => rw [← List.getLast?_cons_cons]; exact hl
        rw [List.cons_append, splitNNGo_cons_newline]
        rw [ih t cur 1 (by omega) (fun _ => ⟨hh', hb'⟩) hcc.2 hl' ht]
        simp
      · have hcc := List.chain'_cons'.mp hn
        have hl' : b'.getLast? ≠ some '\n' := by
          cases b' with
          | nil => simp
          | cons x xs => rw [← List.getLast?_cons_cons]; exact hl
        rw [List.cons_append, splitNNGo_cons_other cur nl _ hc,
          if_neg (by omega : ¬ 2 ≤ nl)]
        rw [ih t _ 0 (by omega) (by simp) hcc.2 hl' ht]
        simp

theorem head?_joinSep {sep : List Char} {b : List Char} (bs : List (List Char))
    (h : b ≠ []) : (joinSep sep (b :: bs)).head? = b.head? := by
  cases bs with
  | nil => rfl
  | cons b2 bs' =>
      show (b ++ sep ++ joinSep sep (b2 :: bs')).head? = b.head?
      rw [List.append_assoc, List.head?_append_of_ne_nil _ h]

theorem joinSep_ne_nil {sep : List Char} {b : List Char} (bs : List (List Char))
    (h : b ≠ []) : joinSep sep (b :: bs) ≠ [] := by
  intro hnil
  have hh : (joinSep sep (b :: bs)).head? = b.head? := head?_joinSep bs h
  rw [hnil] at hh
  simp only [List.head?_nil] at hh
  exact h (List.head?_eq_none_iff.mp hh.symm)

theorem getLast?_joinSep_good :
    ∀ (bs : List (List Char)) (b : List Char),
      (∀ x ∈ b :: bs, x ≠ [] ∧ pyStrip x = x) →
      ∃ c, (joinSep ['\n', '\n'] (b :: bs)).getLast? = some c ∧ isPySpace c = false := by
  intro bs
  induction bs with
  | nil =>
      intro b hg
      obtain ⟨hne, hs⟩ := hg b (List.mem_cons_self b [])
      obtain ⟨c, hc⟩ := Option.ne_none_iff_exists'.mp
        (fun h => hne (List.getLast?_eq_none_iff.mp h))
      exact ⟨c, hc, getLast?_pyStrip (by rw [hs]; exact hc)⟩
  | cons b2 bs' ih =>
      intro b hg
      obtain ⟨c, hc, hcs⟩ := ih b2 (fun x hx => hg x (List.mem_cons_of_mem b hx))
      refine ⟨c, ?_, hcs⟩
      show ((b ++ ['\n', '\n']) ++ joinSep ['\n', '\n'] (b2 :: bs')).getLast? = some c
      rw [List.getLast?_append, hc]
      rfl

theorem splitNN_joinSep :
    ∀ (bs : List (List Char)) (b : List Char),
      (∀ x ∈ b :: bs, x ≠ [] ∧ pyStrip x = x ∧ noNN x) →
      splitNN (joinSep ['\n', '\n'] (b :: bs)) = b :: bs := by
  intro bs
  induction bs with
  | nil =>
      intro b hg
      obtain ⟨hne, hs, hn⟩ := hg b (List.mem_cons_self b [])
      show splitNNGo [] 0 b = [b]
      rw [splitNNGo_noSep b [] 0 (by omega) (by simp) hn]
      simp
  | cons b2 bs' ih =>
      intro b hg
      obtain ⟨hne, hs, hn⟩ := hg b (List.mem_cons_self b _)
      obtain ⟨hne2, hs2, _⟩ := hg b2 (List.mem_cons_of_mem b (List.mem_cons_self b2 _))
      have ht : (joinSep ['\n', '\n'] (b2 :: bs')).head? ≠ some '\n' := by
        rw [head?_joinSep bs' hne2]
        exact good_head?_ne_nl hs2
      show splitNNGo [] 0 (b ++ ['\n', '\n'] ++ joinSep ['\n', '\n'] (b2 :: bs')) = _
      rw [List.append_assoc]
      have hsep : ((['\n', '\n'] : List Char) ++ joinSep ['\n', '\n'] (b2 :: bs')) =
          '\n' :: '\n' :: joinSep ['\n', '\n'] (b2 :: bs') := rfl
      rw [hsep, splitNNGo_sep b _ [] 0 (by omega) (by simp) hn
        (good_getLast?_ne_nl hs) ht]
      have hrec : splitNNGo [] 0 (joinSep ['\n', '\n'] (b2 :: bs')) =
          splitNN (joinSep ['\n', '\n'] (b2 :: bs')) := rfl
      rw [hrec, ih b2 (fun x hx => hg x (List.mem_cons_of_mem b hx))]
      simp

theorem pyStrip_serialize :
    ∀ (bs : List (List Char)) (b : List Char),
      (∀ x ∈ b :: bs, x ≠ [] ∧ pyStrip x = x) →
      pyStrip (serializeBlocks (b :: bs)) = joinSep ['\n', '\n'] (b :: bs) := by
  intro bs b hg
  obtain ⟨hne, hs⟩ := hg b (List.mem_cons_self b _)
  have hJne : joinSep ['\n', '\n'] (b :: bs) ≠ [] := joinSep_ne_nil bs hne
  obtain ⟨c0, hc0⟩ : ∃ c0, (joinSep ['\n', '\n'] (b :: bs)).head? = some c0 := by
    cases hh : (joinSep ['\n', '\n'] (b :: bs)).head? with
    | none => exact absurd (List.head?_eq_none_iff.mp hh) hJne
    | some c => exact ⟨c, rfl⟩
  have hc0s : isPySpace c0 = false := by
    rw [head?_joinSep bs hne] at hc0
    exact head?_pyStrip (by rw [hs]; exact hc0)
  unfold serializeBlocks pyStrip
  have hsl : stripL (joinSep ['\n', '\n'] (b :: bs) ++ ['\n']) =
      joinSep ['\n', '\n'] (b :: bs) ++ ['\n'] := by
    unfold stripL
    refine dropWhile_eq_self_of_head? ?_ hc0s
    rw [List.head?_append_of_ne_nil _ hJne]
    exact hc0
  rw [hsl]
  have hsr1 : stripR (joinSep ['\n', '\n'] (b :: bs) ++ ['\n']) =
      stripR (joinSep ['\n', '\n'] (b :: bs)) := by
    unfold stripR
    rw [List.reverse_append]
    show ((['\n'] ++ (joinSep ['\n', '\n'] (b :: bs)).reverse).dropWhile isPySpace).reverse = _
    rw [List.singleton_append, List.dropWhile_cons, if_pos isPySpace_nl]
  rw [hsr1]
  obtain ⟨c, hc, hcs⟩ := getLast?_joinSep_good bs b hg
  exact stripR_eq_of_getLast? hc hcs

/-! Every line of a nonempty block with no border newline and no two
consecutive newlines is nonempty. -/

theorem splitOnNl_frags_ne_nil :
    ∀ (n : Nat) (l : List Char), l.length ≤ n → l ≠ [] → l.head? ≠ some '\n' →
      noNN l → l.getLast? ≠ some '\n' → ∀ f ∈ splitOnNl l, f ≠ [] := by
  intro n
  induction n with
  | zero =>
      intro l hlen hne _ _ _
      rw [List.length_eq_zero.mp (Nat.le_zero.mp hlen)] at hne
      exact absurd rfl hne
  | succ n ih =>
      intro l hlen hne hh hn hl f hf
      cases l with
      | nil => exact absurd rfl hne
      | cons c rest =>
          have hc : c ≠ '\n' := fun h => hh (by rw [h]; rfl)
          cases rest with
          | nil =>
              simp only [splitOnNl, if_neg hc, List.mem_singleton] at hf
              subst hf
              simp
          | cons d r' =>
              by_cases hd : d = '\n'
              · subst hd
                have hr'ne : r' ≠ [] := by
                  intro h
                  subst h
                  exact hl (by rw [List.getLast?_cons_cons, List.getLast?_singleton])
                have hcc := List.chain'_cons'.mp hn
                have hcc2 := List.chain'_cons'.mp hcc.2
                have hh' : r'.head? ≠ some '\n' := fun hr =>
                  hcc2.1 '\n' (by rw [hr]; rfl) ⟨rfl, rfl⟩
                have hl' : r'.getLast? ≠ some '\n' := by
                  cases r' with
                  | nil => exact absurd rfl hr'ne
                  | cons x xs =>
                      rw [List.getLast?_cons_cons, List.getLast?_cons_cons] at hl
                      exact hl
                have hsplit : splitOnNl (c :: '\n' :: r') = [c] :: splitOnNl r' := by
                  rw [splitOnNl_cons_other _ hc, splitOnNl_cons_newline]
                rw [hsplit] at hf
                rcases List.mem_cons.mp hf with h | h
                · subst h; simp
                · refine ih r' ?_ hr'ne hh' hcc2.2 hl' f h
                  simp only [List.length_cons] at hlen
                  omega
              · have hdh : (d :: r').head? ≠ some '\n' := fun hr =>
                  hd (Option.some.inj hr)
                have hcc := List.chain'_cons'.mp hn
                have hdl : (d :: r').getLast? ≠ some '\n' := by
                  rw [List.getLast?_cons_cons] at hl
                  exact hl
                have hall : ∀ g ∈ splitOnNl (d :: r'), g ≠ [] := by
                  refine ih (d :: r') ?_ (by simp) hdh hcc.2 hdl
                  simp only [List.length_cons] at hlen ⊢
                  omega
                cases heq : splitOnNl (d :: r') with
                | nil => exact absurd heq (splitOnNl_ne_nil _)
                | cons f0 fs =>
                    have hsplit : splitOnNl (c :: d :: r') = (c :: f0) :: fs := by
                      rw [splitOnNl_cons_other _ hc, heq]
                    rw [hsplit] at hf
                    rcases List.mem_cons.mp hf with h | h
                    · subst h; simp
                    · exact hall f (heq ▸ List.mem_cons_of_mem f0 h)

/-! Lemmas about the retry loop of translate_text. -/

theorem retryLoop_succ (api : Nat → Except Unit (List Char)) (delay a n : Nat) :
    retryLoop api delay a (n + 1) =
      match api a with
      | Except.ok s => ⟨some s, 1, []⟩
      | Except.error _ =>
          if n = 0 then ⟨none, 1, []⟩
          else
            ⟨(retryLoop api delay (a + 1) n).result,
             (retryLoop api delay (a + 1) n).attempts + 1,
             delay :: (retryLoop api delay (a + 1) n).sleeps⟩ := rfl

theorem retryLoop_attempts_le (api : Nat → Except Unit (List Char)) (delay : Nat) :
    ∀ (fuel attempt : Nat), (retryLoop api delay attempt fuel).attempts ≤ fuel := by
  intro fuel
  induction fuel with
  | zero => intro a; exact Nat.le_refl 0
  | succ n ih =>
      intro a
      rw [retryLoop_succ]
      cases hapi : api a with
      | ok s => exact Nat.succ_le_succ (Nat.zero_le n)
      | error e =>
          by_cases h : n = 0
          · rw [if_pos h]
            exact Nat.succ_le_succ (Nat.zero_le n)
          · rw [if_neg h]
            show (retryLoop api delay (a + 1) n).attempts + 1 ≤ n + 1
            have h2 := ih (a + 1)
            omega

theorem retryLoop_sleeps_const (api : Nat → Except Unit (List Char)) (delay : Nat) :
    ∀ (fuel attempt : Nat), ∀ d ∈ (retryLoop api delay attempt fuel).sleeps, d = delay := by
  intro fuel
  induction fuel with
  | zero => intro a d hd; exact absurd hd (List.not_mem_nil d)
  | succ n ih =>
      intro a d hd
      rw [retryLoop_succ] at hd
      cases hapi : api a with
      | ok s =>
          rw [hapi] at hd
          exact absurd hd (List.not_mem_nil d)
      | error e =>
          rw [hapi] at hd
          by_cases h : n = 0
          · rw [if_pos h] at hd
            exact absurd hd (List.not_mem_nil d)
          · rw [if_neg h] at hd
            have hd' : d ∈ delay :: (retryLoop api delay (a + 1) n).sleeps := hd
            rcases List.mem_cons.mp hd' with h' | h'
            · exact h'
            · exact ih (a + 1) d h'

theorem retryLoop_all_fail (api : Nat → Except Unit (List Char)) (delay : Nat)
    (hfail : ∀ i, api i = Except.error ()) :
    ∀ (fuel attempt : Nat),
      retryLoop api delay attempt fuel =
        ⟨none, fuel, List.replicate (fuel - 1) delay⟩ := by
  intro fuel
  induction fuel with
  | zero => intro a; rfl
  | succ n ih =>
      intro a
      rw [retryLoop_succ, hfail a]
      by_cases h : n = 0
      · rw [if_pos h]
        subst h
        rfl
      · rw [if_neg h]
        show (⟨(retryLoop api delay (a + 1) n).result,
          (retryLoop api delay (a + 1) n).attempts + 1,
          delay :: (retryLoop api delay (a + 1) n).sleeps⟩ : RetryTrace) = _
        rw [ih (a + 1)]
        have hrep : delay :: List.replicate (n - 1) delay = List.replicate n delay := by
          have hn : n - 1 + 1 = n := by omega
          conv_rhs => rw [← hn]
          rw [List.replicate_succ]
        simp [hrep]

/-! Path lemmas for process_srt_file. -/

theorem process_srt_file_success {decoded : List (Option (List Char))}
    {content : List Char} {oracle : Nat → List Char → TransOutcome}
    {path : List Char} {fsOk : List Char → Bool}
    (hdec : firstDecode decoded = some content)
    (hdir : dirname path ≠ []) (hfs : fsOk (dirname path) = true) :
    process_srt_file decoded oracle path fsOk =
      ProcOutcome.success
        (serializeBlocks (translateBlocks oracle (parseBlocks content)))
        (summaryLines path (parseBlocks content).length) := by
  unfold process_srt_file
  rw [hdec]
  simp [hdir, hfs]

theorem process_srt_file_emptyDirname {decoded : List (Option (List Char))}
    {content : List Char} {oracle : Nat → List Char → TransOutcome}
    {path : List Char} {fsOk : List Char → Bool}
    (hdec : firstDecode decoded = some content) (hdir : dirname path = []) :
    process_srt_file decoded oracle path fsOk = ProcOutcome.fsFail := by
  unfold process_srt_file
  rw [hdec]
  simp [hdir]

theorem translateBlocks_all_fail {oracle : Nat → List Char → TransOutcome}
    (hfail : ∀ i t, oracle i t = TransOutcome.noResult ∨ oracle i t = TransOutcome.exn)
    (blocks : List (List Char)) : translateBlocks oracle blocks = blocks := by
  unfold translateBlocks
  apply mapWithIndex_eq_self
  intro j b _
  apply processBlock_fallback
  intro s hs
  rcases hfail j (joinSep ['\n'] ((splitOnNl b).drop 2)) with h' | h' <;>
    rw [h'] at hs <;> exact TransOutcome.noConfusion hs

theorem dirname_no_slash {l : List Char} (h : '/' ∉ l) : dirname l = [] := by
  unfold dirname
  have hdrop : l.reverse.dropWhile (· ≠ '/') = [] := by
    rw [List.dropWhile_eq_nil_iff]
    intro x hx
    have hxl : x ∈ l := List.mem_reverse.mp hx
    have hxe : x ≠ '/' := fun he => h (he ▸ hxl)
    simpa using hxe
  rw [hdrop]
  simp

theorem processBlock_ok_lines {oracle : Nat → List Char → TransOutcome} {i : Nat}
    {b s : List Char} (h3 : 3 ≤ (splitOnNl b).length)
    (ho : oracle i (joinSep ['\n'] ((splitOnNl b).drop 2)) = TransOutcome.ok s) :
    splitOnNl (processBlock oracle i b).1 =
      (splitOnNl b).getD 0 [] :: ((splitOnNl b).getD 1 [] :: splitOnNl s) := by
  obtain ⟨l0, l1, l2, rest, heq⟩ := exists_three h3
  have hm : ¬ (splitOnNl b).length < 3 := by omega
  have hl0 : '\n' ∉ l0 := splitOnNl_no_nl b l0 (by rw [heq]; exact List.mem_cons_self _ _)
  have hl1 : '\n' ∉ l1 := splitOnNl_no_nl b l1
    (by rw [heq]; exact List.mem_cons_of_mem _ (List.mem_cons_self _ _))
  unfold processBlock
  rw [if_neg hm]
  simp only [ho]
  show splitOnNl ((splitOnNl b).getD 0 [] ++
    '\n' :: ((splitOnNl b).getD 1 [] ++ '\n' :: s)) = _
  have hg0 : (splitOnNl b).getD 0 [] = l0 := by rw [heq]; rfl
  have hg1 : (splitOnNl b).getD 1 [] = l1 := by rw [heq]; rfl
  rw [hg0, hg1, splitOnNl_append_nl _ hl0, splitOnNl_append_nl _ hl1]

theorem firstDecode_decodeAttempts_ne_none (bs : List (Fin 256)) :
    firstDecode (decodeAttempts bs) ≠ none := by
  simp only [decodeAttempts]
  cases utf8Decode bs <;> cases utf8SigDecode bs <;> cases cp1252Decode bs <;>
    simp [firstDecode]

/-! Claim theorems. -/

/-- C1: if the translation provider fails on every call (translate_text
returns None or raises for every block), the block loop leaves every
block of the parsed document unchanged and in order, process_srt_file
still reaches the success path, writes the re-serialization of the
parsed input (so every well-formed block keeps its input text with no
data loss), and returns True. -/
theorem C1_fallback_safety (decoded : List (Option (List Char)))
    (content : List Char) (oracle : Nat → List Char → TransOutcome)
    (path : List Char) (fsOk : List Char → Bool)
    (hdec : firstDecode decoded = some content)
    (hfail : ∀ i t, oracle i t = TransOutcome.noResult ∨ oracle i t = TransOutcome.exn)
    (hdir : dirname path ≠ []) (hfs : fsOk (dirname path) = true) :
    translateBlocks oracle (parseBlocks content) = parseBlocks content ∧
    process_srt_file decoded oracle path fsOk =
      ProcOutcome.success (serializeBlocks (parseBlocks content))
        (summaryLines path (parseBlocks content).length) ∧
    process_srt_file_ret decoded oracle path fsOk = true := by
  have ht := translateBlocks_all_fail hfail (parseBlocks content)
  refine ⟨ht, ?_, ?_⟩
  · rw [process_srt_file_success hdec hdir hfs, ht]
  · unfold process_srt_file_ret
    rw [process_srt_file_success hdec hdir hfs]

/-- Witness for C1 at a concrete one-block document and an always-None
provider: the run succeeds and writes the input back unchanged. -/
theorem C1_witness :
    process_srt_file [some docOne] oracleNone pathOut fsAll =
      ProcOutcome.success (("1\nt\nHi\n").data) (summaryLines pathOut 1) := by
  have h := C1_fallback_safety [some docOne] docOne oracleNone pathOut fsAll rfl
    (fun i t => Or.inl rfl) (by decide) rfl
  rw [h.2.1]
  decide

/-- C2: translate_text makes at most max_retries attempts at the external
call (default arguments 10 and 5 are recorded in the definition), every
sleep between attempts is the constant delay, and when every attempt
raises it returns an explicit None after exactly max_retries attempts,
never propagating the exception. -/
theorem C2_retry_policy (api : Nat → Except Unit (List Char)) (mr delay : Nat) :
    (translate_text api mr delay).attempts ≤ mr ∧
    (∀ d ∈ (translate_text api mr delay).sleeps, d = delay) ∧
    ((∀ i, api i = Except.error ()) →
      translate_text api mr delay =
        ⟨none, mr, List.replicate (mr - 1) delay⟩) :=
  ⟨retryLoop_attempts_le api delay mr 0,
   retryLoop_sleeps_const api delay mr 0,
   fun hfail => retryLoop_all_fail api delay hfail mr 0⟩

/-- Witness for C2 at an always-raising call with 3 retries and delay 5:
the result is None after 3 attempts with two constant sleeps. -/
theorem C2_witness : translate_text apiAllFail 3 5 = ⟨none, 3, [5, 5]⟩ := by
  have h := (C2_retry_policy apiAllFail 3 5).2.2 (fun i => rfl)
  rw [h]
  decide

/-- C3: whenever the input decodes and the output directory is writable,
the written output is the serialization of the translated block list,
which has exactly as many blocks as the parsed input, and its k-th block
is obtained from the k-th parsed input block — no block is dropped,
reordered, merged, or split, for every provider oracle. -/
theorem C3_block_count_invariance (decoded : List (Option (List Char)))
    (content : List Char) (oracle : Nat → List Char → TransOutcome)
    (path : List Char) (fsOk : List Char → Bool)
    (hdec : firstDecode decoded = some content)
    (hdir : dirname path ≠ []) (hfs : fsOk (dirname path) = true) :
    process_srt_file decoded oracle path fsOk =
      ProcOutcome.success
        (serializeBlocks (translateBlocks oracle (parseBlocks content)))
        (summaryLines path (parseBlocks content).length) ∧
    (translateBlocks oracle (parseBlocks content)).length =
      (parseBlocks content).length ∧
    (∀ k, (translateBlocks oracle (parseBlocks content))[k]? =
      ((parseBlocks content)[k]?).map
        (fun b => (processBlock oracle (1 + k) b).1)) :=
  ⟨process_srt_file_success hdec hdir hfs,
   mapWithIndex_length _ (parseBlocks content) 1,
   fun k => mapWithIndex_getElem? _ (parseBlocks content) 1 k⟩

/-- Witness for C3 at a concrete two-block document under an always-None
provider. -/
theorem C3_witness :
    (translateBlocks oracleNone (parseBlocks docTwo)).length =
      (parseBlocks docTwo).length ∧
    (parseBlocks docTwo).length = 2 := by
  have h := C3_block_count_invariance [some docTwo] docTwo oracleNone pathOut
    fsAll rfl (by decide) rfl
  exact ⟨h.2.1, by decide⟩

/-- C4: for every input that decodes and every output path whose
directory component is empty, process_srt_file stops at the
output-writing step because os.makedirs of the empty string raises: no
output is written and the function returns False, whatever the provider
returned for the blocks; and a slash-free entered name, as accepted by
get_output_filename, always yields such a path. -/
theorem C4_bare_output_path_fails (decoded : List (Option (List Char)))
    (content : List Char) (oracle : Nat → List Char → TransOutcome)
    (path : List Char) (fsOk : List Char → Bool)
    (hdec : firstDecode decoded = some content) (hdir : dirname path = []) :
    process_srt_file decoded oracle path fsOk = ProcOutcome.fsFail ∧
    process_srt_file_ret decoded oracle path fsOk = false ∧
    (∀ name : List Char, '/' ∉ name → dirname (outputFilename name) = []) := by
  refine ⟨process_srt_file_emptyDirname hdec hdir, ?_, ?_⟩
  · unfold process_srt_file_ret
    rw [process_srt_file_emptyDirname hdec hdir]
  · intro name hslash
    apply dirname_no_slash
    unfold outputFilename
    by_cases hsuf : List.isSuffixOf ['.', 's', 'r', 't'] name
    · rw [if_pos hsuf]; exact hslash
    · rw [if_neg hsuf]
      intro hmem
      rcases List.mem_append.mp hmem with h' | h'
      · exact hslash h'
      · simp at h'

/-- Witness for C4 at a concrete bare filename with an all-success
provider: the run still fails and writes nothing. -/
theorem C4_witness :
    process_srt_file [some docOne] oracleOkX pathBare fsAll = ProcOutcome.fsFail ∧
    dirname (outputFilename (("out").data)) = [] := by
  have h := C4_bare_output_path_fails [some docOne] docOne oracleOkX pathBare
    fsAll rfl (by decide)
  exact ⟨h.1, h.2.2 (("out").data) (by decide)⟩

/-- C5: for every well-formed block (at least 3 lines) and every provider
outcome, the processed block's first line and second line are equal,
character for character, to the input block's first and second lines. -/
theorem C5_index_timing_immutable (oracle : Nat → List Char → TransOutcome)
    (i : Nat) (b : List Char) (h3 : 3 ≤ (splitOnNl b).length) :
    (splitOnNl (processBlock oracle i b).1).getD 0 [] = (splitOnNl b).getD 0 [] ∧
    (splitOnNl (processBlock oracle i b).1).getD 1 [] = (splitOnNl b).getD 1 [] := by
  cases ho : oracle i (joinSep ['\n'] ((splitOnNl b).drop 2)) with
  | ok s =>
      rw [processBlock_ok_lines h3 ho]
      exact ⟨rfl, rfl⟩
  | noResult =>
      have hb : (processBlock oracle i b).1 = b := by
        apply processBlock_fallback
        intro s hs
        rw [ho] at hs
        exact TransOutcome.noConfusion hs
      rw [hb]
      exact ⟨rfl, rfl⟩
  | exn =>
      have hb : (processBlock oracle i b).1 = b := by
        apply processBlock_fallback
        intro s hs
        rw [ho] at hs
        exact TransOutcome.noConfusion hs
      rw [hb]
      exact ⟨rfl, rfl⟩

/-- Witness for C5 at a concrete well-formed block under a successful
provider call. -/
theorem C5_witness :
    (splitOnNl (processBlock oracleOkX 1 docOne).1).getD 0 [] =
      (splitOnNl docOne).getD 0 [] ∧
    (splitOnNl (processBlock oracleOkX 1 docOne).1).getD 1 [] =
      (splitOnNl docOne).getD 1 [] :=
  C5_index_timing_immutable oracleOkX 1 docOne (by decide)

/-- C6: every block of a parsed document with fewer than 3 nonempty raw
lines is treated as malformed: the provider is not called for it (the
boolean of processBlock is false) and it is passed through unchanged. -/
theorem C6_malformed_passthrough (content : List Char)
    (oracle : Nat → List Char → TransOutcome) (i : Nat) (b : List Char)
    (hb : b ∈ parseBlocks content)
    (hlt : ((splitOnNl b).filter (· ≠ [])).length < 3) :
    processBlock oracle i b = (b, false) := by
  obtain ⟨hne, hs, hn⟩ := parseBlocks_good hb
  have hall : ∀ f ∈ splitOnNl b, f ≠ [] :=
    splitOnNl_frags_ne_nil b.length b (Nat.le_refl _) hne (good_head?_ne_nl hs)
      hn (good_getLast?_ne_nl hs)
  have hfilter : (splitOnNl b).filter (· ≠ []) = splitOnNl b := by
    rw [List.filter_eq_self]
    intro a ha
    simpa using hall a ha
  rw [hfilter] at hlt
  exact processBlock_malformed hlt

/-- Witness for C6 at the malformed one-line second block of a concrete
document. -/
theorem C6_witness : processBlock oracleOkX 2 (("x").data) = ((("x").data), false) :=
  C6_malformed_passthrough docMal oracleOkX 2 (("x").data) (by decide) (by decide)

/-- C7 counterexample: the provider returns the empty string, which is a
result but not a non-empty one; the claim says the block should keep its
original text, but the code replaces the text with the empty string. -/
theorem C7_counterexample :
    (processBlock oracleOkEmpty 1 docOne).1 = ("1\nt\n").data ∧
    joinSep ['\n'] ((splitOnNl (processBlock oracleOkEmpty 1 docOne).1).drop 2) ≠
      joinSep ['\n'] ((splitOnNl docOne).drop 2) := by
  decide

/-- C7 amended: a well-formed block's text is replaced by the provider's
result exactly when translate_text returns a result (any string,
including the empty one); the block keeps its original text exactly when
translate_text returns None or raises. -/
theorem C7_translated_iff_result (oracle : Nat → List Char → TransOutcome)
    (i : Nat) (b : List Char) (h3 : 3 ≤ (splitOnNl b).length) :
    (∀ s, oracle i (joinSep ['\n'] ((splitOnNl b).drop 2)) = TransOutcome.ok s →
      joinSep ['\n'] ((splitOnNl (processBlock oracle i b).1).drop 2) = s) ∧
    ((∀ s, oracle i (joinSep ['\n'] ((splitOnNl b).drop 2)) ≠ TransOutcome.ok s) →
      (processBlock oracle i b).1 = b) := by
  constructor
  · intro s ho
    rw [processBlock_ok_lines h3 ho]
    show joinSep ['\n'] (splitOnNl s) = s
    exact joinSep_splitOnNl s
  · intro hno
    exact processBlock_fallback hno

/-- Witness for C7 at a concrete block and a provider returning X: the
text lines of the output are exactly X. -/
theorem C7_witness :
    joinSep ['\n'] ((splitOnNl (processBlock oracleOkX 1 docOne).1).drop 2) = ['X'] :=
  (C7_translated_iff_result oracleOkX 1 docOne (by decide)).1 ['X'] rfl

/-- C8 counterexample: two runs on the same input whose outcome counts
(translated, fallback, skipped) differ — all blocks translated versus all
blocks fallen back — produce identical summaries, so the summary reports
no such counts. -/
theorem C8_counterexample :
    procSummary (process_srt_file [some docTwo] oracleOkX pathOut fsAll) =
      procSummary (process_srt_file [some docTwo] oracleNone pathOut fsAll) ∧
    blockCounts oracleOkX 1 (parseBlocks docTwo) ≠
      blockCounts oracleNone 1 (parseBlocks docTwo) := by
  decide

/-- C8 amended: for every input that decodes, whenever the output
directory is writable the run always reaches the success path — however
many blocks failed — and produces the fixed three-line summary reporting
the output path and the total number of parsed blocks, alongside the
serialized document; it does not report the translated, fallback and
skipped counts. -/
theorem C8_summary_total_only (decoded : List (Option (List Char)))
    (content : List Char) (oracle : Nat → List Char → TransOutcome)
    (path : List Char) (fsOk : List Char → Bool)
    (hdec : firstDecode decoded = some content)
    (hdir : dirname path ≠ []) (hfs : fsOk (dirname path) = true) :
    procSummary (process_srt_file decoded oracle path fsOk) =
      some (summaryLines path (parseBlocks content).length) := by
  rw [process_srt_file_success hdec hdir hfs]
  rfl

/-- Witness for C8 at a concrete document with one failing provider. -/
theorem C8_witness :
    procSummary (process_srt_file [some docTwo] oracleNone pathOut fsAll) =
      some (summaryLines pathOut 2) := by
  have h := C8_summary_total_only [some docTwo] docTwo oracleNone pathOut fsAll
    rfl (by decide) rfl
  rw [h]
  decide

/-- C9: parsing, serializing and re-parsing any document yields the same
block sequence as parsing it once: parse after serialize after parse
equals parse, for every input. -/
theorem C9_round_trip (d : List Char) :
    parseBlocks (serializeBlocks (parseBlocks d)) = parseBlocks d := by
  cases hbs : parseBlocks d with
  | nil =>
      show parseBlocks (serializeBlocks []) = []
      decide
  | cons b bs' =>
      have hg : ∀ x ∈ b :: bs', x ≠ [] ∧ pyStrip x = x ∧ noNN x := by
        intro x hx
        exact parseBlocks_good (hbs ▸ hx)
      show ((splitNN (pyStrip (serializeBlocks (b :: bs')))).map pyStrip).filter
        (· ≠ []) = b :: bs'
      rw [pyStrip_serialize bs' b (fun x hx => ⟨(hg x hx).1, (hg x hx).2.1⟩)]
      rw [splitNN_joinSep bs' b hg]
      have hmap : (b :: bs').map pyStrip = b :: bs' := by
        have h1 : ∀ x ∈ b :: bs', pyStrip x = id x := fun x hx => (hg x hx).2.1
        rw [List.map_congr_left h1, List.map_id]
      rw [hmap]
      rw [List.filter_eq_self.mpr (fun x hx => by simpa using (hg x hx).1)]

/-- C10 counterexample: there is no byte sequence that fails to decode
under all four candidate encodings, because latin-1 decodes every byte
sequence; the claimed scenario is impossible. -/
theorem C10_counterexample :
    ¬ ∃ bs : List (Fin 256), firstDecode (decodeAttempts bs) = none :=
  fun ⟨bs, h⟩ => firstDecode_decodeAttempts_ne_none bs h

/-- C10 amended: every byte sequence decodes under the candidate encoding
list (latin-1 is total), so the decode-failure path of process_srt_file
is unreachable: the run never fails with the decode error. -/
theorem C10_decode_never_fails (bs : List (Fin 256))
    (oracle : Nat → List Char → TransOutcome) (path : List Char)
    (fsOk : List Char → Bool) :
    (∃ s, firstDecode (decodeAttempts bs) = some s) ∧
    process_srt_file (decodeAttempts bs) oracle path fsOk ≠
      ProcOutcome.decodeFail := by
  have h := firstDecode_decodeAttempts_ne_none bs
  refine ⟨Option.ne_none_iff_exists'.mp h, ?_⟩
  unfold process_srt_file
  cases hd : firstDecode (decodeAttempts bs) with
  | none => exact absurd hd h
  | some content =>
      by_cases h1 : dirname path = []
      · simp [h1]
      · by_cases h2 : fsOk (dirname path) <;> simp [h1, h2]

end SubE2C
